import Mathlib

/-!
Shallow embedding of `lopro.go` (jdeng/golopro), a parallel CSV key-tally
pipeline, together with proofs about its specification claims.

Modelling conventions:
* Go's `map[string]int64` accumulators are modelled as total functions
  `String → Int` with default value 0: a missing key reads as 0, which is
  exactly the semantics of `m[k] += v` on a Go map.
* A Go runtime panic (out-of-range slice index) is modelled by `Option`:
  `none` means the operation panics.
* `int64` counters are modelled by `Int` (no claim involves overflow).
* Go `interface{}` record values are modelled by the inductive `LogRecord`:
  the CSV parser always produces a `[]string` (possibly nil, modelled as
  `.strs []`); any other dynamic type is `.other`, on which QuickReport.Add's
  type assertion fails and the record is silently ignored.
-/

/-- A decoded record handed from the parser to the reports.  `.strs r`
models an `interface{}` holding a `[]string`; `.other` models any other
dynamic type (whose type assertion in `QuickReport.Add` fails). -/
inductive LogRecord where
  | strs (r : List String)
  | other
deriving DecidableEq

/-- Embeds Go `DefaultReport{result map[string]int64}`: the accumulator map,
as a total function with default 0. -/
structure DefaultReport where
  result : String → Int

/-- Embeds `DefaultReport.Merge`: for every key of the other report, add its
count into ours.  With 0-default maps this is pointwise addition. -/
def DefaultReport.Merge (r nr : DefaultReport) : DefaultReport :=
  ⟨fun k => r.result k + nr.result k⟩

/-- Embeds `DefaultReport.Clear`: `r.result = make(map[string]int64)`,
i.e. replace the accumulator by the empty (all-zero) map. -/
def DefaultReport.Clear (_ : DefaultReport) : DefaultReport :=
  ⟨fun _ => 0⟩

/-- Embeds Go `QuickReport`: an embedded `DefaultReport` plus the configured
ordered list of key-field indices (`keys []int`; Go `int` may be negative). -/
structure QuickReport extends DefaultReport where
  keys : List Int

/-- Embeds `NewQuickReport(keys)`: fresh empty accumulator with the given keys. -/
def NewQuickReport (keys : List Int) : QuickReport :=
  ⟨⟨fun _ => 0⟩, keys⟩

/-- Embeds `QuickReport.New`: `return NewQuickReport(qr.keys)`. -/
def QuickReport.New (qr : QuickReport) : QuickReport :=
  NewQuickReport qr.keys

/-- Embeds `QuickReport.Merge`: delegates to the embedded DefaultReport's
Merge; the keys configuration of the receiver is untouched. -/
def QuickReport.Merge (qr nr : QuickReport) : QuickReport :=
  ⟨qr.toDefaultReport.Merge nr.toDefaultReport, qr.keys⟩

/-- Embeds `QuickReport`'s promoted `Clear` (from DefaultReport): the
accumulator is emptied, the keys configuration stays. -/
def QuickReport.Clear (qr : QuickReport) : QuickReport :=
  ⟨qr.toDefaultReport.Clear, qr.keys⟩

/-- One key segment of `QuickReport.Add`'s loop body for index `k`: when
`k >= len(r)` the loop `continue`s, contributing the empty segment; otherwise
it appends `r[k]`, which in Go panics (here: `none`) iff `k` is negative. -/
def keySegment (r : List String) (k : Int) : Option String :=
  if (r.length : Int) ≤ k then some ""
  else if k < 0 then none
  else some (r.getD k.toNat "")

/-- All key segments of `QuickReport.Add`'s loop, in configured key order;
`none` if any segment access panics. -/
def segmentsOf (r : List String) : List Int → Option (List String)
  | [] => some []
  | k :: ks =>
    match keySegment r k with
    | none => none
    | some seg =>
      match segmentsOf r ks with
      | none => none
      | some segs => some (seg :: segs)

/-- The full key built by `QuickReport.Add`'s loop: the segments joined with
`","` (the loop prepends `","` before every position except the first, so a
skipped position still gets its separator). -/
def quickKey (keys : List Int) (r : List String) : Option String :=
  (segmentsOf r keys).map (String.intercalate ",")

/-- Models the Go map increment `m[key] += 1` on a 0-default map. -/
def bump (m : String → Int) (key : String) : String → Int :=
  fun s => if s = key then m s + 1 else m s

/-- Embeds `QuickReport.Add`: type-assert the record to `[]string` (silently
ignore other shapes), build the joined key from the configured indices, and
increment its count.  `none` models the Go panic on a negative key index. -/
def QuickReport.Add (qr : QuickReport) (rec : LogRecord) : Option QuickReport :=
  match rec with
  | .other => some qr
  | .strs r =>
    match quickKey qr.keys r with
    | none => none
    | some key => some ⟨⟨bump qr.result key⟩, qr.keys⟩

/-- Feeding a list of records one by one into a single QuickReport (the
record loop restricted to one report); `none` models a panic partway. -/
def processList (qr : QuickReport) : List LogRecord → Option QuickReport
  | [] => some qr
  | rec :: rest =>
    match qr.Add rec with
    | none => none
    | some q1 => processList q1 rest

/-- Embeds Go `ReportManager{reports []Report; references []*ReportManager}`.
The program registers only `QuickReport`s, so the report slice is modelled
concretely; the reference slice holds the managers spawned by `Clone`. -/
inductive ReportManager where
  | mk (reports : List QuickReport) (references : List ReportManager)

/-- The `reports` field of a ReportManager. -/
def ReportManager.reports : ReportManager → List QuickReport
  | .mk rs _ => rs

/-- The `references` field of a ReportManager. -/
def ReportManager.references : ReportManager → List ReportManager
  | .mk _ refs => refs

/-- Embeds `NewReportManager()`: empty report and reference slices. -/
def NewReportManager : ReportManager := .mk [] []

/-- Embeds `ReportManager.RegisterReport`: append one report. -/
def ReportManager.RegisterReport (rm : ReportManager) (rpt : QuickReport) : ReportManager :=
  .mk (rm.reports ++ [rpt]) rm.references

/-- Embeds `ReportManager.Clone`.  Go mutates the receiver (appending the
back-reference) and returns the new manager; here the pair is
(returned clone, receiver after the append). -/
def ReportManager.Clone (rm : ReportManager) : ReportManager × ReportManager :=
  let nrm := ReportManager.mk (rm.reports.map QuickReport.New) []
  (nrm, ReportManager.mk rm.reports (rm.references ++ [nrm]))

/-- Fallback QuickReport used for out-of-range `getD` reads (Go would panic
there; the claims use it only at in-range indices). -/
def emptyQuick : QuickReport := NewQuickReport []

/-- Inner loop of `Reduce` for one report index `i`: fold every referenced
clone's report at index `i` into the accumulator via `Merge`. -/
def mergeRefsAt : List ReportManager → Nat → QuickReport → QuickReport
  | [], _, r => r
  | nrm :: rest, i, r => mergeRefsAt rest i (r.Merge (nrm.reports.getD i emptyQuick))

/-- Outer loop of `Reduce` over the master's reports, index-aware. -/
def reduceReports (refs : List ReportManager) : Nat → List QuickReport → List QuickReport
  | _, [] => []
  | i, r :: rest => mergeRefsAt refs i r :: reduceReports refs (i + 1) rest

/-- The cumulative effect of `Reduce`'s `nrm.reports[i].Clear()` calls on one
clone: every report at an index below the master's report count is cleared. -/
def clearList (n : Nat) : Nat → List QuickReport → List QuickReport
  | _, [] => []
  | i, r :: rest => (if i < n then r.Clear else r) :: clearList n (i + 1) rest

/-- Apply the clearing of `Reduce` to one referenced clone manager. -/
def clearReports (n : Nat) : ReportManager → ReportManager
  | .mk rs refs => .mk (clearList n 0 rs) refs

/-- Embeds `ReportManager.Reduce`: for every report index, merge every
referenced clone's report at that index into the master's, clearing each
clone report right after it has been merged. -/
def ReportManager.Reduce : ReportManager → ReportManager
  | .mk rs refs => .mk (reduceReports refs 0 rs) (refs.map (clearReports rs.length))

/-- The body of `ReportManager.ProcessRecord`'s loop: `Add` the record to
every report in order; `none` models a panic inside an `Add`. -/
def addAll (rec : LogRecord) : List QuickReport → Option (List QuickReport)
  | [] => some []
  | r :: rest =>
    match r.Add rec with
    | none => none
    | some r1 =>
      match addAll rec rest with
      | none => none
      | some rest1 => some (r1 :: rest1)

/-- Embeds `ReportManager.ProcessRecord`: fan one record out to every report. -/
def ReportManager.ProcessRecord (rm : ReportManager) (rec : LogRecord) : Option ReportManager :=
  match rm with
  | .mk rs refs =>
    match addAll rec rs with
    | none => none
    | some rs1 => some (.mk rs1 refs)

/-- One pending result of the underlying `csv.Reader.Read` call: either a
successfully decoded row or a decode error (for which `Read` returns a nil
record, modelled as `[]`).  End of file is the end of the list. -/
inductive ReadResult where
  | record (r : List String)
  | parseErr
deriving DecidableEq

/-- The error component of a `csv.Reader.Read` result: nil, `io.EOF`, or a
decode error. -/
inductive CSVErr where
  | noerr
  | eof
  | decodeErr
deriving DecidableEq

/-- Models `csv.Reader.Read` over the abstract stream of pending results:
returns `(record, error)` and the remaining stream.  After exhaustion every
call reports `io.EOF` with a nil record. -/
def csvRead : List ReadResult → (List String × CSVErr) × List ReadResult
  | [] => (([], .eof), [])
  | .record r :: rest => ((r, .noerr), rest)
  | .parseErr :: rest => (([], .decodeErr), rest)

/-- Embeds Go `CSVParser{comma byte; reader *csv.Reader}`; the reader state
is threaded separately as a `List ReadResult`. -/
structure CSVParser where
  comma : Char
deriving DecidableEq

/-- Embeds `NewCSVParser(comma)`. -/
def NewCSVParser (comma : Char) : CSVParser := ⟨comma⟩

/-- Embeds `CSVParser.Clone`: `return NewCSVParser(lp.comma)`. -/
def CSVParser.Clone (lp : CSVParser) : CSVParser := NewCSVParser lp.comma

/-- Embeds `CSVParser.NextRecord`: `r, err := lp.reader.Read(); return 0, r, err`.
The first component — the consumed byte count reported to the worker — is
the literal constant 0. -/
def CSVParser.NextRecord (lp : CSVParser) (st : List ReadResult) :
    (Nat × List String × CSVErr) × List ReadResult :=
  let res := csvRead st
  ((0, res.1.1, res.1.2), res.2)

/-- Embeds Go `WorkerStats{files, bytes, bytesCompressed, records int64}`. -/
structure WorkerStats where
  files : Int
  bytes : Int
  bytesCompressed : Int
  records : Int
deriving DecidableEq

/-- Embeds `WorkerStats.Merge`: add all four counters. -/
def WorkerStats.Merge (s ws : WorkerStats) : WorkerStats :=
  ⟨s.files + ws.files, s.bytes + ws.bytes,
   s.bytesCompressed + ws.bytesCompressed, s.records + ws.records⟩

/-- The mutable state of a Worker that `Process` touches: its stats and its
owned ReportManager. -/
structure WorkerState where
  stats : WorkerStats
  reportMgr : ReportManager

/-- Embeds the per-record loop of `Worker.Process` (lines 175-188).  An empty
stream means `NextRecord` reports `io.EOF` and the loop breaks.  For a
non-empty stream the error is either nil or a decode error; in BOTH cases the
source falls through to `ProcessRecord` and the counter updates (a decode
error is only logged — there is no `continue`), so the possibly-nil record is
forwarded and `records` is incremented.  `none` models a panic in `Add`. -/
def recordLoop (lp : CSVParser) : List ReadResult → WorkerState → Option WorkerState
  | [], w => some w
  | e :: rest, w =>
    let step := lp.NextRecord (e :: rest)
    match w.reportMgr.ProcessRecord (LogRecord.strs step.1.2.1) with
    | none => none
    | some rm =>
      recordLoop lp rest
        ⟨⟨w.stats.files, w.stats.bytes + (step.1.1 : Int),
          w.stats.bytesCompressed, w.stats.records + 1⟩, rm⟩

/-- The error value `Worker.Process` returns when it fails before the record
loop: `os.Stat`, `os.Open`, or `gzip.NewReader` failed. -/
inductive GoError where
  | statErr
  | openErr
  | decompressInitErr
deriving DecidableEq

/-- One task as `Worker.Process` observes it: a failure at one of the three
pre-loop steps, or a readable file with its on-disk size and the stream of
CSV read results its contents decode to. -/
inductive FileOutcome where
  | statErr
  | openErr
  | decompressInitErr
  | ok (size : Int) (events : List ReadResult)
deriving DecidableEq

/-- Embeds `Worker.Process`: on a stat/open/decompression-init failure return
that error immediately with the state untouched; otherwise run the record
loop, then add the file's size to `bytesCompressed` and bump `files`.
`none` models a panic; `some (state, err)` is the Go return. -/
def Worker.Process (lp : CSVParser) :
    FileOutcome → WorkerState → Option (WorkerState × Option GoError)
  | .statErr, w => some (w, some .statErr)
  | .openErr, w => some (w, some .openErr)
  | .decompressInitErr, w => some (w, some .decompressInitErr)
  | .ok size events, w =>
    match recordLoop lp events w with
    | none => none
    | some w1 =>
      some (⟨⟨w1.stats.files + 1, w1.stats.bytes,
              w1.stats.bytesCompressed + size, w1.stats.records⟩,
             w1.reportMgr⟩, none)

/-- Embeds `Worker.Run`'s task loop: process each task in turn; an error
returned by `Process` is only logged and the worker continues with the next
task.  The channel sentinel is modelled by the end of the task list. -/
def Worker.Run (lp : CSVParser) : List FileOutcome → WorkerState → Option WorkerState
  | [], w => some w
  | t :: rest, w =>
    match Worker.Process lp t w with
    | none => none
    | some (w1, _) => Worker.Run lp rest w1

/-- The state of a freshly constructed worker whose manager holds one
registered `NewQuickReport keys` (as `main` builds it): zero stats. -/
def initWorkerState (keys : List Int) : WorkerState :=
  ⟨⟨0, 0, 0, 0⟩, NewReportManager.RegisterReport (NewQuickReport keys)⟩

/-- One decimal digit of `strconv.Atoi`'s digit loop. -/
def digitVal (c : Char) : Option Nat :=
  if '0' ≤ c ∧ c ≤ '9' then some (c.toNat - '0'.toNat) else none

/-- `strconv.Atoi`'s digit accumulation loop. -/
def digitsValAux : Nat → List Char → Option Nat
  | acc, [] => some acc
  | acc, c :: cs =>
    match digitVal c with
    | none => none
    | some d => digitsValAux (acc * 10 + d) cs

/-- The magnitude denoted by a nonempty all-digit string; `none` on an empty
or non-digit string (a `strconv` syntax error). -/
def digitsVal : List Char → Option Nat
  | [] => none
  | cs => digitsValAux 0 cs

/-- Models `strconv.Atoi` on a 64-bit platform: optional single sign, at
least one digit, int64 range check.  Note a leading `-` is accepted: Go's
Atoi parses negative numbers. -/
def atoi (s : String) : Option Int :=
  match s.data with
  | '-' :: rest =>
    (digitsVal rest).bind fun n => if n ≤ 2 ^ 63 then some (-(n : Int)) else none
  | '+' :: rest =>
    (digitsVal rest).bind fun n => if n ≤ 2 ^ 63 - 1 then some (n : Int) else none
  | cs =>
    (digitsVal cs).bind fun n => if n ≤ 2 ^ 63 - 1 then some (n : Int) else none

/-- Models `strings.Split(s, ",")` at the character level: the list of
comma-separated pieces, as character lists (`Split("", ",")` is `[""]`). -/
def splitCommaAux : List Char → List (List Char)
  | [] => [[]]
  | c :: cs =>
    match splitCommaAux cs with
    | [] => [[]]
    | p :: ps => if c = ',' then [] :: p :: ps else (c :: p) :: ps

/-- Embeds `main`'s key parsing loop (lines 276-283): split the flag on
`","`, run `strconv.Atoi` on each piece, silently drop the pieces on which
Atoi errors, keep every successfully parsed integer — negative ones too. -/
def parseKeys (flag : String) : List Int :=
  ((splitCommaAux flag.data).map (fun cs => String.mk cs)).filterMap atoi

/-- How `main` aborts during setup: the explicit `return` on an empty key
list, or the panic of `(*comma)[0]` on an empty separator flag. -/
inductive SetupError where
  | emptyKeys
  | emptySeparator
deriving DecidableEq

/-- Embeds `main`'s setup sequence after the file listing (lines 276-291):
parse the keys flag; `return` if no key survived; index the separator flag's
first byte (a panic if it is empty); construct the CSV parser from that byte
and the QuickReport from the surviving keys. -/
def setupRun (commaFlag keysFlag : String) :
    Except SetupError (CSVParser × QuickReport) :=
  let ks := parseKeys keysFlag
  if ks.isEmpty then .error .emptyKeys
  else
    match commaFlag.data with
    | [] => .error .emptySeparator
    | c :: _ => .ok (NewCSVParser c, NewQuickReport ks)

/-- `main`'s worker construction: worker 0 keeps the master manager, each of
the remaining `n-1` workers gets a fresh clone of the master.  Returns the
master (after all the back-reference appends) and the clones. -/
def cloneN (rm : ReportManager) : Nat → ReportManager × List ReportManager
  | 0 => (rm, [])
  | n + 1 =>
    let p := rm.Clone
    let q := cloneN p.2 n
    (q.1, p.1 :: q.2)

/-- Embeds `main` from key parsing to worker construction: on a setup error
nothing is built — no master manager, no clones, no workers. -/
def mainWorkers (commaFlag keysFlag : String) (nprocs : Nat) :
    Except SetupError (ReportManager × List ReportManager) :=
  match setupRun commaFlag keysFlag with
  | .error e => .error e
  | .ok pr => .ok (cloneN (NewReportManager.RegisterReport pr.2) (nprocs - 1))

/-- The key `QuickReport.Add` would derive from one record: `none` for a
record of unexpected shape (ignored) or one whose key construction panics. -/
def recKey (keys : List Int) : LogRecord → Option String
  | .strs r => quickKey keys r
  | .other => none

/-- The sequence of keys derived from a record list, skipping ignored
records. -/
def keysOf (keys : List Int) (l : List LogRecord) : List String :=
  l.filterMap (recKey keys)

/-- Whether `QuickReport.Add` on this record completes without panicking
(for a report configured with `keys`). -/
def recOk (keys : List Int) : LogRecord → Bool
  | .strs r => (quickKey keys r).isSome
  | .other => true

/-- Process each part of a partition in its own fresh clone report
(`NewQuickReport keys`, exactly what `QuickReport.New` hands a worker). -/
def processParts (keys : List Int) : List (List LogRecord) → Option (List QuickReport)
  | [] => some []
  | p :: ps =>
    match processList (NewQuickReport keys) p with
    | none => none
    | some q =>
      match processParts keys ps with
      | none => none
      | some qs => some (q :: qs)

/-- Merge a list of clone reports into a master one by one, as `Reduce` does
for each report index. -/
def foldMerge : List QuickReport → QuickReport → QuickReport
  | [], acc => acc
  | q :: qs, acc => foldMerge qs (acc.Merge q)

theorem QuickReport.Merge_result (a b : QuickReport) (s : String) :
    (a.Merge b).result s = a.result s + b.result s := rfl

theorem QuickReport.Clear_result (q : QuickReport) (s : String) :
    q.Clear.result s = 0 := rfl

theorem QuickReport.New_result (q : QuickReport) (s : String) :
    q.New.result s = 0 := rfl

theorem QuickReport.New_keys (q : QuickReport) : q.New.keys = q.keys := rfl

theorem QuickReport.Add_some {qr q1 : QuickReport} {rec : LogRecord}
    (h : qr.Add rec = some q1) :
    q1.keys = qr.keys ∧ ∀ s, q1.result s
      = qr.result s + (((recKey qr.keys rec).toList.count s : Nat) : Int) := by
  cases rec with
  | other =>
    simp [QuickReport.Add] at h
    subst h
    simp [recKey]
  | strs r =>
    cases hq : quickKey qr.keys r with
    | none => simp [QuickReport.Add, hq] at h
    | some key =>
      simp [QuickReport.Add, hq] at h
      subst h
      refine ⟨rfl, ?_⟩
      intro s
      by_cases hsk : s = key
      · subst hsk
        simp [recKey, hq, bump, List.count_cons]
      · simp [recKey, hq, bump, hsk, List.count_cons, List.count_nil, Ne.symm hsk]

theorem processList_some {q q' : QuickReport} {l : List LogRecord}
    (h : processList q l = some q') :
    q'.keys = q.keys ∧ ∀ s, q'.result s = q.result s + ((keysOf q.keys l).count s : Int) := by
  induction l generalizing q with
  | nil =>
    simp [processList] at h
    subst h
    simp [keysOf]
  | cons rec rest ih =>
    unfold processList at h
    cases hA : QuickReport.Add q rec with
    | none => rw [hA] at h; cases h
    | some q1 =>
      rw [hA] at h
      obtain ⟨hk1, hr1⟩ := QuickReport.Add_some hA
      obtain ⟨hk, hr⟩ := ih h
      refine ⟨hk.trans hk1, ?_⟩
      intro s
      rw [hr s, hr1 s, hk1]
      cases hrk : recKey q.keys rec with
      | none => simp [keysOf, List.filterMap_cons, hrk]
      | some key =>
        simp only [keysOf, List.filterMap_cons, hrk, List.count_cons, Option.toList]
        by_cases hsk : s = key
        · subst hsk
          simp [List.count_cons]
          ring
        · simp [List.count_cons, hsk, Ne.symm hsk]

theorem processList_ok {q q' : QuickReport} {l : List LogRecord}
    (h : processList q l = some q') :
    ∀ rec ∈ l, recOk q.keys rec = true := by
  induction l generalizing q with
  | nil => intro rec hrec; cases hrec
  | cons r0 rest ih =>
    unfold processList at h
    cases hA : QuickReport.Add q r0 with
    | none => rw [hA] at h; cases h
    | some q1 =>
      rw [hA] at h
      intro rec hrec
      rcases List.mem_cons.mp hrec with hr | hr
      · subst hr
        cases rec with
        | other => rfl
        | strs r =>
          cases hq : quickKey q.keys r with
          | none => simp [QuickReport.Add, hq] at hA
          | some key => simp [recOk, hq]
      · have := ih h rec hr
        rwa [(QuickReport.Add_some hA).1] at this

theorem processList_none {q : QuickReport} {l : List LogRecord}
    (h : processList q l = none) :
    ∃ rec ∈ l, recOk q.keys rec = false := by
  induction l generalizing q with
  | nil => simp [processList] at h
  | cons r0 rest ih =>
    unfold processList at h
    cases hA : QuickReport.Add q r0 with
    | none =>
      refine ⟨r0, List.mem_cons_self .., ?_⟩
      cases r0 with
      | other => simp [QuickReport.Add] at hA
      | strs r =>
        cases hq : quickKey q.keys r with
        | none => simp [recOk, hq]
        | some key => simp [QuickReport.Add, hq] at hA
    | some q1 =>
      rw [hA] at h
      obtain ⟨rec, hmem, hbad⟩ := ih h
      rw [(QuickReport.Add_some hA).1] at hbad
      exact ⟨rec, List.mem_cons_of_mem _ hmem, hbad⟩

theorem processParts_none_iff (keys : List Int) (ps : List (List LogRecord)) :
    processParts keys ps = none
      ↔ ∃ p ∈ ps, processList (NewQuickReport keys) p = none := by
  induction ps with
  | nil => simp [processParts]
  | cons p rest ih =>
    unfold processParts
    cases hp : processList (NewQuickReport keys) p with
    | none => simp [hp]
    | some q =>
      cases hr : processParts keys rest with
      | none =>
        obtain ⟨p1, hp1, hn1⟩ := ih.mp hr
        exact ⟨fun _ => ⟨p1, List.mem_cons_of_mem _ hp1, hn1⟩, fun _ => rfl⟩
      | some qs =>
        constructor
        · intro h; cases h
        · rintro ⟨p1, hp1, hn1⟩
          rcases List.mem_cons.mp hp1 with h1 | h1
          · subst h1; rw [hp] at hn1; cases hn1
          · have h2 := ih.mpr ⟨p1, h1, hn1⟩
            rw [hr] at h2; cases h2

theorem processParts_some {keys : List Int} {ps : List (List LogRecord)}
    {qs : List QuickReport} (h : processParts keys ps = some qs) (s : String) :
    qs.map (fun q => q.result s)
      = ps.map (fun p => ((keysOf keys p).count s : Int)) := by
  induction ps generalizing qs with
  | nil =>
    simp [processParts] at h
    subst h
    simp
  | cons p rest ih =>
    unfold processParts at h
    cases hp : processList (NewQuickReport keys) p with
    | none => rw [hp] at h; cases h
    | some q =>
      rw [hp] at h
      cases hr : processParts keys rest with
      | none => rw [hr] at h; cases h
      | some qs1 =>
        rw [hr] at h
        cases h
        have hq := (processList_some hp).2 s
        simp only [List.map_cons, ih hr]
        congr 1
        rw [hq]
        show (0 : Int) + ((List.count s (keysOf keys p) : Nat) : Int)
          = ((List.count s (keysOf keys p) : Nat) : Int)
        exact zero_add _

theorem foldMerge_result (qs : List QuickReport) (acc : QuickReport) (s : String) :
    (foldMerge qs acc).result s = acc.result s + (qs.map fun q => q.result s).sum := by
  induction qs generalizing acc with
  | nil => simp [foldMerge]
  | cons q rest ih =>
    simp only [foldMerge, ih, QuickReport.Merge_result, List.map_cons, List.sum_cons]
    ring

theorem count_keysOf_flatten (keys : List Int) (ps : List (List LogRecord)) (s : String) :
    ((keysOf keys ps.flatten).count s : Int)
      = (ps.map fun p => ((keysOf keys p).count s : Int)).sum := by
  induction ps with
  | nil => simp [keysOf]
  | cons p rest ih =>
    have hj : (p :: rest).flatten = p ++ rest.flatten := rfl
    rw [hj]
    simp only [keysOf, List.filterMap_append, List.count_append,
      List.map_cons, List.sum_cons] at ih ⊢
    rw [← ih]
    push_cast
    ring

/-- Claim C2: for any multiset of records partitioned across per-worker
Report clones, merging all clones' accumulators into a fresh master gives,
for every key, the same count as processing the unpartitioned record
sequence through a single Report (both sides panic together when a record
would panic); and `QuickReport.Merge` is commutative and associative per
key. -/
theorem c2_partition_independence (keys : List Int) (parts : List (List LogRecord))
    (l : List LogRecord) (hperm : l.Perm parts.flatten) (s : String)
    (a b c : QuickReport) :
    ((processParts keys parts).map fun qs => (foldMerge qs (NewQuickReport keys)).result s)
      = ((processList (NewQuickReport keys) l).map fun q => q.result s)
    ∧ (a.Merge b).result s = (b.Merge a).result s
    ∧ ((a.Merge b).Merge c).result s = (a.Merge (b.Merge c)).result s := by
  refine ⟨?_, ?_, ?_⟩
  case refine_2 =>
    show a.result s + b.result s = b.result s + a.result s
    exact add_comm _ _
  case refine_3 =>
    show a.result s + b.result s + c.result s = a.result s + (b.result s + c.result s)
    exact add_assoc _ _ _
  case refine_1 =>
    cases hl : processList (NewQuickReport keys) l with
    | none =>
      obtain ⟨rec, hmem, hbad⟩ := processList_none hl
      have hmemj : rec ∈ parts.flatten := hperm.mem_iff.mp hmem
      obtain ⟨p, hp, hrp⟩ := List.mem_flatten.mp hmemj
      have hpn : processList (NewQuickReport keys) p = none := by
        cases hpp : processList (NewQuickReport keys) p with
        | none => rfl
        | some q =>
          have := processList_ok hpp rec hrp
          rw [this] at hbad
          cases hbad
      have : processParts keys parts = none :=
        (processParts_none_iff keys parts).mpr ⟨p, hp, hpn⟩
      rw [this]
      rfl
    | some q =>
      cases hps : processParts keys parts with
      | none =>
        obtain ⟨p, hp, hpn⟩ := (processParts_none_iff keys parts).mp hps
        obtain ⟨rec, hrp, hbad⟩ := processList_none hpn
        have hin : rec ∈ l := hperm.mem_iff.mpr (List.mem_flatten.mpr ⟨p, hp, hrp⟩)
        have := processList_ok hl rec hin
        rw [this] at hbad
        cases hbad
      | some qs =>
        simp only [Option.map_some']
        refine congrArg some ?_
        rw [foldMerge_result, processParts_some hps s]
        have hq := (processList_some hl).2 s
        rw [hq]
        have hcount : ((keysOf keys l).count s : Int)
            = ((keysOf keys parts.flatten).count s : Int) := by
          have hkeysperm : (keysOf keys l).Perm (keysOf keys parts.flatten) :=
            hperm.filterMap (recKey keys)
          rw [hkeysperm.count_eq]
        show (0 : Int) + _ = (0 : Int) + _
        rw [zero_add, zero_add, ← count_keysOf_flatten]
        show ((keysOf keys parts.flatten).count s : Int)
          = ((keysOf (NewQuickReport keys).keys l).count s : Int)
        rw [← hcount]
        rfl

/-- Witness for C2 at a concrete partition: the identity partition of
three records across two clones, compared against the sequential run. -/
theorem c2_witness :
    ((processParts [0] [[LogRecord.strs ["a"]],
        [LogRecord.strs ["b"], LogRecord.strs ["a"]]]).map
      fun qs => (foldMerge qs (NewQuickReport [0])).result "a")
      = ((processList (NewQuickReport [0])
          ([[LogRecord.strs ["a"]],
            [LogRecord.strs ["b"], LogRecord.strs ["a"]]] :
              List (List LogRecord)).flatten).map fun q => q.result "a") :=
  (c2_partition_independence [0]
    [[LogRecord.strs ["a"]], [LogRecord.strs ["b"], LogRecord.strs ["a"]]]
    ([[LogRecord.strs ["a"]], [LogRecord.strs ["b"], LogRecord.strs ["a"]]] :
      List (List LogRecord)).flatten
    (List.Perm.refl _) "a"
    (NewQuickReport [0]) (NewQuickReport [0]) (NewQuickReport [0])).1

/-- Claim C7: `QuickReport.Add` derives the key by selecting and joining the
configured field indices with ","; the two record sets of the claim yield
exactly the stated accumulators (stated keys have the stated counts, every
other key counts 0). -/
theorem c7_key_construction (s t : String) (h1 : s ≠ "a") (h2 : s ≠ "b")
    (h3 : t ≠ "a,x") (h4 : t ≠ "a,y") :
    ((processList (NewQuickReport [0])
        [LogRecord.strs ["a", "1"], LogRecord.strs ["a", "2"], LogRecord.strs ["b", "1"]]).map
      fun q => (q.result "a", q.result "b", q.result s)) = some (2, 1, 0)
    ∧ ((processList (NewQuickReport [0, 1])
        [LogRecord.strs ["a", "x"], LogRecord.strs ["a", "y"]]).map
      fun q => (q.result "a,x", q.result "a,y", q.result t)) = some (1, 1, 0) := by
  constructor
  · cases hp : processList (NewQuickReport [0])
        [LogRecord.strs ["a", "1"], LogRecord.strs ["a", "2"], LogRecord.strs ["b", "1"]] with
    | none =>
      have hsome : (processList (NewQuickReport [0])
          [LogRecord.strs ["a", "1"], LogRecord.strs ["a", "2"],
           LogRecord.strs ["b", "1"]]).isSome = true := by decide
      rw [hp] at hsome
      cases hsome
    | some q =>
      have hr := (processList_some hp).2
      simp only [Option.map_some']
      refine congrArg some ?_
      have ha : q.result "a" = 2 := by rw [hr "a"]; decide
      have hb : q.result "b" = 1 := by rw [hr "b"]; decide
      have hs : q.result s = 0 := by
        rw [hr s]
        show (0 : Int) + ((List.count s ["a", "a", "b"] : Nat) : Int) = 0
        have hc : List.count s ["a", "a", "b"] = 0 := by
          simp [List.count_cons, beq_iff_eq, h1, h2]
        rw [hc]
        rfl
      rw [ha, hb, hs]
  · cases hp : processList (NewQuickReport [0, 1])
        [LogRecord.strs ["a", "x"], LogRecord.strs ["a", "y"]] with
    | none =>
      have hsome : (processList (NewQuickReport [0, 1])
          [LogRecord.strs ["a", "x"], LogRecord.strs ["a", "y"]]).isSome = true := by decide
      rw [hp] at hsome
      cases hsome
    | some q =>
      have hr := (processList_some hp).2
      simp only [Option.map_some']
      refine congrArg some ?_
      have hx : q.result "a,x" = 1 := by rw [hr "a,x"]; decide
      have hy : q.result "a,y" = 1 := by rw [hr "a,y"]; decide
      have ht : q.result t = 0 := by
        rw [hr t]
        show (0 : Int) + ((List.count t ["a,x", "a,y"] : Nat) : Int) = 0
        have hc : List.count t ["a,x", "a,y"] = 0 := by
          simp [List.count_cons, beq_iff_eq, h3, h4]
        rw [hc]
        rfl
      rw [hx, hy, ht]

/-- Witness for C7 at the concrete non-key string "z". -/
theorem c7_witness :
    (("z" : String) ≠ "a") ∧ (("z" : String) ≠ "b")
    ∧ (("z" : String) ≠ "a,x") ∧ (("z" : String) ≠ "a,y")
    ∧ ((processList (NewQuickReport [0])
        [LogRecord.strs ["a", "1"], LogRecord.strs ["a", "2"], LogRecord.strs ["b", "1"]]).map
      fun q => (q.result "a", q.result "b", q.result "z")) = some (2, 1, 0)
    ∧ ((processList (NewQuickReport [0, 1])
        [LogRecord.strs ["a", "x"], LogRecord.strs ["a", "y"]]).map
      fun q => (q.result "a,x", q.result "a,y", q.result "z")) = some (1, 1, 0) := by
  have h := c7_key_construction "z" "z" (by decide) (by decide) (by decide) (by decide)
  exact ⟨by decide, by decide, by decide, by decide, h.1, h.2⟩

/-- Counterexample to claim C6: `main`'s key parsing keeps the negative
index `-1` (strconv.Atoi accepts it), and `QuickReport.Add` with that
configured index panics (out-of-range slice access) on the record `["a"]`. -/
theorem c6_counterexample :
    parseKeys "-1" = [-1]
    ∧ QuickReport.Add (NewQuickReport (parseKeys "-1")) (LogRecord.strs ["a"]) = none := by
  refine ⟨by decide, ?_⟩
  rfl

/-- Claim C6 as amended: for every configured NON-NEGATIVE key list,
`QuickReport.Add` never fails on any `[]string` record, and an index beyond
the record's field count contributes an empty segment for its position. -/
theorem c6_amended_nonneg_tolerant (keys : List Int) (hk : ∀ k ∈ keys, 0 ≤ k)
    (m : DefaultReport) (r : List String) (k : Int) (hkr : (r.length : Int) ≤ k) :
    (QuickReport.Add ⟨m, keys⟩ (LogRecord.strs r)).isSome = true
    ∧ keySegment r k = some "" := by
  constructor
  · have hseg : ∀ ks : List Int, (∀ x ∈ ks, (0 : Int) ≤ x) →
        (segmentsOf r ks).isSome = true := by
      intro ks
      induction ks with
      | nil => intro _; rfl
      | cons a tl ih =>
        intro hks
        have ha : (keySegment r a).isSome = true := by
          unfold keySegment
          by_cases hc : (r.length : Int) ≤ a
          · simp [hc]
          · have hnn : ¬ a < 0 := not_lt.mpr (hks a (List.mem_cons_self ..))
            simp [hc, hnn]
        have htl := ih (fun x hx => hks x (List.mem_cons_of_mem _ hx))
        cases hsa : keySegment r a with
        | none => rw [hsa] at ha; cases ha
        | some seg =>
          cases hst : segmentsOf r tl with
          | none => rw [hst] at htl; cases htl
          | some segs => simp [segmentsOf, hsa, hst]
    have hsk := hseg keys hk
    cases hs : segmentsOf r keys with
    | none => rw [hs] at hsk; cases hsk
    | some segs => simp [QuickReport.Add, quickKey, hs]
  · simp [keySegment, hkr]

/-- Witness for the amended C6: keys `[0, 5]` on the one-field record
`["a"]` — index 5 is out of range yet `Add` succeeds with an empty segment. -/
theorem c6_amended_witness :
    (∀ k ∈ ([0, 5] : List Int), 0 ≤ k) ∧ (((["a"] : List String).length : Int) ≤ 5)
    ∧ (QuickReport.Add ⟨⟨fun _ => 0⟩, [0, 5]⟩ (LogRecord.strs ["a"])).isSome = true
    ∧ keySegment ["a"] 5 = some "" := by
  have h := c6_amended_nonneg_tolerant [0, 5] (by decide) ⟨fun _ => 0⟩ ["a"] 5 (by decide)
  exact ⟨by decide, by decide, h.1, h.2⟩

theorem getD_map_New (l : List QuickReport) :
    ∀ i, i < l.length →
      (l.map QuickReport.New).getD i emptyQuick = (l.getD i emptyQuick).New := by
  induction l with
  | nil => intro i hi; cases hi
  | cons a tl ih =>
    intro i hi
    cases i with
    | zero => rfl
    | succ j =>
      simp only [List.map_cons, List.getD_cons_succ]
      exact ih j (Nat.lt_of_succ_lt_succ hi)

/-- Claim C3: `Clone` returns a manager with the same number of reports in
the same order (position i of the clone is `New` of position i of the
source, so it carries the same keys configuration), each freshly empty. -/
theorem c3_clone_isolation (rm : ReportManager) (i : Nat)
    (hi : i < rm.reports.length) (s : String) :
    rm.Clone.1.reports.length = rm.reports.length
    ∧ (rm.Clone.1.reports.getD i emptyQuick).keys = (rm.reports.getD i emptyQuick).keys
    ∧ (rm.Clone.1.reports.getD i emptyQuick).result s = 0 := by
  cases rm with
  | mk rs refs =>
    have hrep : (ReportManager.mk rs refs).Clone.1.reports = rs.map QuickReport.New := rfl
    have hrs : (ReportManager.mk rs refs).reports = rs := rfl
    rw [hrs] at hi
    rw [hrep, hrs]
    refine ⟨by simp, ?_, ?_⟩
    · rw [getD_map_New rs i hi]; rfl
    · rw [getD_map_New rs i hi]; rfl

/-- Witness for C3 on a one-report manager whose accumulator is nonempty. -/
theorem c3_witness :
    (0 < (ReportManager.mk [⟨⟨bump (fun _ => 0) "a"⟩, [0]⟩] []).reports.length)
    ∧ (ReportManager.mk [⟨⟨bump (fun _ => 0) "a"⟩, [0]⟩] []).Clone.1.reports.length
        = (ReportManager.mk [⟨⟨bump (fun _ => 0) "a"⟩, [0]⟩] []).reports.length
    ∧ ((ReportManager.mk [⟨⟨bump (fun _ => 0) "a"⟩, [0]⟩] []).Clone.1.reports.getD 0
        emptyQuick).keys
        = (((ReportManager.mk [⟨⟨bump (fun _ => 0) "a"⟩, [0]⟩] []).reports.getD 0
        emptyQuick)).keys
    ∧ ((ReportManager.mk [⟨⟨bump (fun _ => 0) "a"⟩, [0]⟩] []).Clone.1.reports.getD 0
        emptyQuick).result "a" = 0 := by
  have h := c3_clone_isolation (ReportManager.mk [⟨⟨bump (fun _ => 0) "a"⟩, [0]⟩] [])
    0 (by decide) "a"
  exact ⟨by decide, h.1, h.2.1, h.2.2⟩

theorem reduceReports_length (refs : List ReportManager) :
    ∀ (rs : List QuickReport) (i : Nat), (reduceReports refs i rs).length = rs.length := by
  intro rs
  induction rs with
  | nil => intro i; rfl
  | cons r tl ih =>
    intro i
    simp only [reduceReports, List.length_cons, ih]

theorem reduceReports_getD (refs : List ReportManager) :
    ∀ (rs : List QuickReport) (i0 j : Nat), j < rs.length →
      (reduceReports refs i0 rs).getD j emptyQuick
        = mergeRefsAt refs (i0 + j) (rs.getD j emptyQuick) := by
  intro rs
  induction rs with
  | nil => intro i0 j hj; cases hj
  | cons r tl ih =>
    intro i0 j hj
    cases j with
    | zero => simp [reduceReports]
    | succ j1 =>
      simp only [reduceReports, List.getD_cons_succ]
      rw [ih (i0 + 1) j1 (Nat.lt_of_succ_lt_succ hj)]
      congr 1
      omega

theorem clearList_getD (n : Nat) :
    ∀ (rs : List QuickReport) (i0 j : Nat), j < rs.length →
      (clearList n i0 rs).getD j emptyQuick
        = if i0 + j < n then (rs.getD j emptyQuick).Clear
          else rs.getD j emptyQuick := by
  intro rs
  induction rs with
  | nil => intro i0 j hj; cases hj
  | cons r tl ih =>
    intro i0 j hj
    cases j with
    | zero => simp [clearList]
    | succ j1 =>
      simp only [clearList, List.getD_cons_succ]
      rw [ih (i0 + 1) j1 (Nat.lt_of_succ_lt_succ hj)]
      congr 2
      omega

theorem mergeRefsAt_result (i : Nat) (s : String) :
    ∀ (refs : List ReportManager) (r : QuickReport),
      (mergeRefsAt refs i r).result s
        = r.result s
          + (refs.map fun nrm => (nrm.reports.getD i emptyQuick).result s).sum := by
  intro refs
  induction refs with
  | nil => intro r; simp [mergeRefsAt]
  | cons nrm tl ih =>
    intro r
    simp only [mergeRefsAt, ih, QuickReport.Merge_result, List.map_cons, List.sum_cons]
    ring

/-- Claim C4: with every referenced clone holding as many reports as the
master (the invariant `Clone` maintains), running `Reduce` twice with
nothing in between leaves every master accumulator exactly as one `Reduce`
left it, because `Reduce` clears each merged clone report. -/
theorem c4_reduce_idempotent (rm : ReportManager)
    (hlen : ∀ nrm ∈ rm.references, nrm.reports.length = rm.reports.length)
    (i : Nat) (s : String) :
    ((rm.Reduce.Reduce).reports.getD i emptyQuick).result s
      = ((rm.Reduce).reports.getD i emptyQuick).result s := by
  cases rm with
  | mk rs refs =>
    have hlen1 : ∀ nrm ∈ refs, nrm.reports.length = rs.length := hlen
    have h1 : (ReportManager.mk rs refs).Reduce
        = ReportManager.mk (reduceReports refs 0 rs)
            (refs.map (clearReports rs.length)) := rfl
    rw [h1]
    have h2 : (ReportManager.mk (reduceReports refs 0 rs)
          (refs.map (clearReports rs.length))).Reduce
        = ReportManager.mk
            (reduceReports (refs.map (clearReports rs.length)) 0
              (reduceReports refs 0 rs))
            ((refs.map (clearReports rs.length)).map
              (clearReports (reduceReports refs 0 rs).length)) := rfl
    rw [h2]
    show ((reduceReports (refs.map (clearReports rs.length)) 0
        (reduceReports refs 0 rs)).getD i emptyQuick).result s
      = ((reduceReports refs 0 rs).getD i emptyQuick).result s
    by_cases hi : i < rs.length
    · have hi1 : i < (reduceReports refs 0 rs).length := by
        rw [reduceReports_length]; exact hi
      rw [reduceReports_getD _ _ 0 i hi1, Nat.zero_add, mergeRefsAt_result]
      have hzero : ∀ x ∈ (refs.map (clearReports rs.length)).map
          (fun nrm => (nrm.reports.getD i emptyQuick).result s), x = 0 := by
        intro x hx
        obtain ⟨nrm1, hn1, hxeq⟩ := List.mem_map.mp hx
        obtain ⟨nrm0, hn0, hfeq⟩ := List.mem_map.mp hn1
        cases nrm0 with
        | mk rs2 refs2 =>
          have hl2 : rs2.length = rs.length := hlen1 _ hn0
          have hrep : (clearReports rs.length (ReportManager.mk rs2 refs2)).reports
              = clearList rs.length 0 rs2 := rfl
          rw [← hxeq, ← hfeq, hrep,
            clearList_getD rs.length rs2 0 i (by rw [hl2]; exact hi)]
          rw [if_pos (by omega)]
          exact QuickReport.Clear_result _ s
      rw [List.sum_eq_zero hzero, add_zero]
    · have hge : rs.length ≤ i := Nat.le_of_not_lt hi
      have hA : (reduceReports (refs.map (clearReports rs.length)) 0
          (reduceReports refs 0 rs)).length ≤ i := by
        rw [reduceReports_length, reduceReports_length]; exact hge
      have hB : (reduceReports refs 0 rs).length ≤ i := by
        rw [reduceReports_length]; exact hge
      rw [List.getD_eq_default _ _ hA, List.getD_eq_default _ _ hB]

/-- Witness for C4: a master with one report and one clone whose accumulator
already counts "a" once. -/
theorem c4_witness :
    (∀ nrm ∈ (ReportManager.mk [NewQuickReport [0]]
        [ReportManager.mk [⟨⟨bump (fun _ => 0) "a"⟩, [0]⟩] []]).references,
      nrm.reports.length
        = (ReportManager.mk [NewQuickReport [0]]
            [ReportManager.mk [⟨⟨bump (fun _ => 0) "a"⟩, [0]⟩] []]).reports.length)
    ∧ (((ReportManager.mk [NewQuickReport [0]]
          [ReportManager.mk [⟨⟨bump (fun _ => 0) "a"⟩, [0]⟩] []]).Reduce.Reduce).reports.getD
            0 emptyQuick).result "a"
      = (((ReportManager.mk [NewQuickReport [0]]
          [ReportManager.mk [⟨⟨bump (fun _ => 0) "a"⟩, [0]⟩] []]).Reduce).reports.getD
            0 emptyQuick).result "a" := by
  refine ⟨?_, ?_⟩
  · intro nrm hn
    rcases List.mem_singleton.mp hn with h
    subst h
    rfl
  · exact c4_reduce_idempotent _
      (by
        intro nrm hn
        rcases List.mem_singleton.mp hn with h
        subst h
        rfl) 0 "a"

/-- Claim C1 (code bug witness): on a file whose single `csv.Reader.Read`
call fails with a decode error, `Worker.Process` still forwards the nil
record into `ProcessRecord` and still increments the record counter: the
final state has `records = 1` and the accumulator counts the empty key once
(`result "" = 1`), where the claim requires `records = 0` and an untouched
accumulator. -/
theorem c1_error_record_forwarded :
    ((Worker.Process (NewCSVParser ',') (FileOutcome.ok 7 [ReadResult.parseErr])
        (initWorkerState [0])).map
      fun p => (p.1.stats.records, p.1.stats.files, p.1.stats.bytesCompressed,
                (p.1.reportMgr.reports.getD 0 emptyQuick).result "", p.2))
      = some (1, 1, 7, 1, none) := by
  decide

/-- Claim C8: when `Worker.Process` fails to stat, open, or initialize
decompression for a file it returns that error with the worker's state —
all four counters and every report accumulator — exactly unchanged, and
`Worker.Run` merely logs the error and continues with the next task. -/
theorem c8_prefile_failure_skips_file (lp : CSVParser) (w : WorkerState)
    (rest : List FileOutcome) :
    Worker.Process lp FileOutcome.statErr w = some (w, some GoError.statErr)
    ∧ Worker.Process lp FileOutcome.openErr w = some (w, some GoError.openErr)
    ∧ Worker.Process lp FileOutcome.decompressInitErr w
        = some (w, some GoError.decompressInitErr)
    ∧ Worker.Run lp (FileOutcome.statErr :: rest) w = Worker.Run lp rest w
    ∧ Worker.Run lp (FileOutcome.openErr :: rest) w = Worker.Run lp rest w
    ∧ Worker.Run lp (FileOutcome.decompressInitErr :: rest) w
        = Worker.Run lp rest w :=
  ⟨rfl, rfl, rfl, rfl, rfl, rfl⟩

theorem recordLoop_bytes {lp : CSVParser} :
    ∀ {events : List ReadResult} {w w1 : WorkerState}, w.stats.bytes = 0 →
      recordLoop lp events w = some w1 → w1.stats.bytes = 0 := by
  intro events
  induction events with
  | nil =>
    intro w w1 h0 h
    simp [recordLoop] at h
    subst h
    exact h0
  | cons e rest ih =>
    intro w w1 h0 h
    simp only [recordLoop] at h
    cases hpr : w.reportMgr.ProcessRecord
        (LogRecord.strs ((lp.NextRecord (e :: rest)).1.2.1)) with
    | none =>
      rw [hpr] at h
      exact Option.noConfusion h
    | some rm =>
      rw [hpr] at h
      refine ih ?_ h
      show w.stats.bytes + (((lp.NextRecord (e :: rest)).1.1 : Nat) : Int) = 0
      have hz : (lp.NextRecord (e :: rest)).1.1 = 0 := rfl
      rw [h0, hz]
      rfl

theorem Process_bytes {lp : CSVParser} {t : FileOutcome} {w w1 : WorkerState}
    {e : Option GoError} (h0 : w.stats.bytes = 0)
    (h : Worker.Process lp t w = some (w1, e)) : w1.stats.bytes = 0 := by
  cases t with
  | statErr => cases h; exact h0
  | openErr => cases h; exact h0
  | decompressInitErr => cases h; exact h0
  | ok size events =>
    simp only [Worker.Process] at h
    cases hloop : recordLoop lp events w with
    | none =>
      rw [hloop] at h
      exact Option.noConfusion h
    | some w2 =>
      rw [hloop] at h
      cases h
      show w2.stats.bytes = 0
      exact recordLoop_bytes h0 hloop

theorem Run_bytes {lp : CSVParser} :
    ∀ {tasks : List FileOutcome} {w w1 : WorkerState}, w.stats.bytes = 0 →
      Worker.Run lp tasks w = some w1 → w1.stats.bytes = 0 := by
  intro tasks
  induction tasks with
  | nil =>
    intro w w1 h0 h
    simp [Worker.Run] at h
    subst h
    exact h0
  | cons t rest ih =>
    intro w w1 h0 h
    simp only [Worker.Run] at h
    cases hp : Worker.Process lp t w with
    | none =>
      rw [hp] at h
      exact Option.noConfusion h
    | some p =>
      rw [hp] at h
      have hb : p.1.stats.bytes = 0 := by
        cases p with
        | mk w2 e2 => exact Process_bytes h0 hp
      exact ih hb h

/-- Claim C9: `CSVParser.NextRecord` always reports 0 consumed bytes, so a
worker that starts with a zero `bytes` counter still has it at 0 after
running any task list with the bundled CSV parser. -/
theorem c9_bytes_stat_stays_zero (lp : CSVParser) (tasks : List FileOutcome)
    (w : WorkerState) (h0 : w.stats.bytes = 0) :
    (∀ st : List ReadResult, (lp.NextRecord st).1.1 = 0)
    ∧ ∀ b, (Worker.Run lp tasks w).map (fun w1 => w1.stats.bytes) = some b →
        b = 0 := by
  refine ⟨fun st => rfl, ?_⟩
  intro b hb
  cases hr : Worker.Run lp tasks w with
  | none => rw [hr] at hb; cases hb
  | some w1 =>
    rw [hr] at hb
    cases hb
    exact Run_bytes h0 hr

/-- Witness for C9: two tasks (one real file with one record, one stat
failure) leave the bytes counter at 0. -/
theorem c9_witness :
    (initWorkerState [0]).stats.bytes = 0
    ∧ (Worker.Run (NewCSVParser ',')
        [FileOutcome.ok 3 [ReadResult.record ["a"]], FileOutcome.statErr]
        (initWorkerState [0])).map (fun w1 => w1.stats.bytes) = some 0
    ∧ (0 : Int) = 0 := by
  refine ⟨rfl, by decide, ?_⟩
  exact (c9_bytes_stat_stays_zero (NewCSVParser ',')
    [FileOutcome.ok 3 [ReadResult.record ["a"]], FileOutcome.statErr]
    (initWorkerState [0]) rfl).2 0 (by decide)

/-- Claim C5: when no valid key index survives parsing, `main` returns
during setup — before the parser, the master manager, or any worker/clone
is constructed; no partial run happens. -/
theorem c5_empty_keys_aborts (commaFlag keysFlag : String)
    (hk : parseKeys keysFlag = []) (nprocs : Nat) :
    setupRun commaFlag keysFlag = Except.error SetupError.emptyKeys
    ∧ mainWorkers commaFlag keysFlag nprocs = Except.error SetupError.emptyKeys := by
  have h1 : setupRun commaFlag keysFlag = Except.error SetupError.emptyKeys := by
    simp [setupRun, hk]
  exact ⟨h1, by simp [mainWorkers, h1]⟩

/-- Witness for C5: the keys flag "a,b" parses to no valid index. -/
theorem c5_witness :
    parseKeys "a,b" = []
    ∧ setupRun "," "a,b" = Except.error SetupError.emptyKeys
    ∧ mainWorkers "," "a,b" 4 = Except.error SetupError.emptyKeys := by
  have h := c5_empty_keys_aborts "," "a,b" (by decide) 4
  exact ⟨by decide, h.1, h.2⟩

/-- Claim C10: reaching the parser construction (a non-empty parsed key
list), an empty separator flag makes `(*comma)[0]` index an empty string —
the run dies in setup before any file is processed — while for a non-empty
separator only its first byte becomes the CSV delimiter. -/
theorem c10_separator_first_byte (commaFlag keysFlag : String)
    (hk : parseKeys keysFlag ≠ []) :
    (commaFlag = "" → setupRun commaFlag keysFlag
        = Except.error SetupError.emptySeparator)
    ∧ ∀ c cs, commaFlag.data = c :: cs →
        setupRun commaFlag keysFlag
          = Except.ok (NewCSVParser c, NewQuickReport (parseKeys keysFlag)) := by
  have hne : (parseKeys keysFlag).isEmpty = false := by
    cases h : parseKeys keysFlag with
    | nil => exact absurd h hk
    | cons a l => rfl
  constructor
  · intro hc
    subst hc
    simp [setupRun, hne]
  · intro c cs hdata
    simp [setupRun, hne, hdata]

/-- Witness for C10: separator flag ";" with the default keys flag "0". -/
theorem c10_witness :
    parseKeys "0" ≠ []
    ∧ (String.data ";" = [';'] )
    ∧ setupRun ";" "0" = Except.ok (NewCSVParser ';', NewQuickReport (parseKeys "0")) := by
  have h := (c10_separator_first_byte ";" "0" (by decide)).2 ';' [] (by decide)
  exact ⟨by decide, by decide, h⟩
